import Mathlib

/-!
Verification of the cpptoml library (src/include/cpptoml.h): a shallow
embedding of its document-tree data model (`base`/`value<T>`/`array`/
`table`/`table_array`), its qualified-key resolver and its recursive
descent TOML parser, together with theorems settling the specification
claims.

Modelling conventions:
* C++ strings are modelled as `List Char`; `txt` injects Lean string
  literals.
* `std::shared_ptr<base>` trees become the inductive `node`; a `table`
  (an `unordered_map<string, shared_ptr<base>>`) becomes an association
  list in which `insert` (`map_[key] = value`) replaces in place, and a
  `table_array` becomes a list of tables.
* Exceptions become `Except`: `Err.parse msg (some n)` is
  `parse_exception{msg, n}` (thrown by `throw_parse_exception`),
  `Err.parse msg none` is the one-argument `parse_exception{msg}`
  constructor, and `Err.stdExc` covers the non-`parse_exception`
  exceptions escaping `std::stoll` / `std::stod`.
* The mutually recursive value/array parsers are written with explicit
  fuel (the C++ recursion has no static bound); fuel exhaustion is the
  distinct outcome `Err.fuelExhausted`, never conflated with a parse
  error.
* C++ reads of `*it` at `it == end` (the code does this on `std::string`
  iterators, where `data()[size()]` holds a terminating NUL) are
  modelled by `peek`, which yields the NUL character on the empty list.
-/

namespace cpptoml

/-- C++ `std::string` contents, modelled character by character. -/
abbrev Chars := List Char

/-- Shorthand turning a Lean string literal into modelled C++ text. -/
def txt (s : String) : Chars := s.data

/-- The five scalar payload types `T` admitted by `valid_value<T>`:
`std::string`, `int64_t`, `double`, `bool`, `std::tm`. -/
inductive scalarKind where
  | str
  | int
  | flt
  | boolean
  | datetime
deriving DecidableEq

/-- The `std::tm` fields populated by `parser::parse_date`: year as
offset from 1900, month 0-based, as the code stores them. -/
structure Datetime where
  tm_year : Int
  tm_mon : Int
  tm_mday : Int
  tm_hour : Int
  tm_min : Int
  tm_sec : Int
deriving DecidableEq

/-- A document node: the closed `base` hierarchy.  `value<std::string>`
… `value<std::tm>` are the five scalar constructors (`vFloat` keeps the
literal character span handed to `std::stod`, since no claim depends on
floating-point arithmetic, only on the node's dynamic kind), `arr` is
`array`, `tbl` is `table` (its `unordered_map` as an association list),
and `tblArr` is `table_array` (its `vector<shared_ptr<table>>`). -/
inductive node where
  | vStr (s : Chars)
  | vInt (n : Int)
  | vFloat (lit : Chars)
  | vBool (b : Bool)
  | vDate (d : Datetime)
  | arr (elems : List node)
  | tbl (entries : List (Chars × node))
  | tblArr (tables : List (List (Chars × node)))

/-- The contents of a `cpptoml::table`. -/
abbrev Table := List (Chars × node)

/-- `base::is_value`. -/
def is_value : node → Bool
  | .vStr _ | .vInt _ | .vFloat _ | .vBool _ | .vDate _ => true
  | _ => false

/-- `base::is_table`. -/
def is_table : node → Bool
  | .tbl _ => true
  | _ => false

/-- `base::is_array`. -/
def is_array : node → Bool
  | .arr _ => true
  | _ => false

/-- `base::is_table_array`. -/
def is_table_array : node → Bool
  | .tblArr _ => true
  | _ => false

/-- `base::as_table`: the checked downcast, `nullptr` on mismatch. -/
def as_table : node → Option Table
  | .tbl t => some t
  | _ => none

/-- `base::as_array`. -/
def as_array : node → Option (List node)
  | .arr xs => some xs
  | _ => none

/-- `base::as_table_array`. -/
def as_table_array : node → Option (List Table)
  | .tblArr ts => some ts
  | _ => none

/-- The dynamic scalar kind of a node, `none` for non-values; the
`dynamic_pointer_cast<value<T>>` in `base::as<T>` succeeds exactly when
this equals `some` of T's kind. -/
def scalarKindOf : node → Option scalarKind
  | .vStr _ => some .str
  | .vInt _ => some .int
  | .vFloat _ => some .flt
  | .vBool _ => some .boolean
  | .vDate _ => some .datetime
  | _ => none

/-- `base::as<T>`: the scalar downcast, `nullptr` on kind mismatch. -/
def asVal (k : scalarKind) (b : node) : Option node :=
  if scalarKindOf b = some k then some b else none

/-- `map_.find(key)` on a table: the underlying association-list lookup
(`unordered_map` key uniqueness is maintained by `insert`). -/
def lookupT : Table → Chars → Option node
  | [], _ => none
  | (k', v) :: rest, k => if k' = k then some v else lookupT rest k

/-- `table::contains`. -/
def contains (t : Table) (k : Chars) : Bool :=
  (lookupT t k).isSome

/-- `table::get`: `map_.at(key)`, which throws `std::out_of_range` when
the key is absent (the `.error` branch). -/
def get (t : Table) (k : Chars) : Except Chars node :=
  match lookupT t k with
  | some v => .ok v
  | none => .error (txt "map::at: out_of_range")

/-- `table::insert(key, value)`: `map_[key] = value` — replaces an
existing mapping in place, otherwise appends; never fails. -/
def insert : Table → Chars → node → Table
  | [], k, v => [(k, v)]
  | (k', v') :: rest, k, v =>
      if k' = k then (k, v) :: rest else (k', v') :: insert rest k v

/-- `table::get_table`: `contains(key) && get(key)->is_table()` guarded
static cast, `nullptr` otherwise. -/
def get_table (t : Table) (k : Chars) : Option Table :=
  match lookupT t k with
  | some b => if is_table b then as_table b else none
  | none => none

/-- `table::get_array`: `nullptr` unless the key is present, else
`get(key)->as_array()`. -/
def get_array (t : Table) (k : Chars) : Option (List node) :=
  match lookupT t k with
  | some b => as_array b
  | none => none

/-- `table::get_table_array`. -/
def get_table_array (t : Table) (k : Chars) : Option (List Table) :=
  match lookupT t k with
  | some b => as_table_array b
  | none => none

/-- `table::get_as<T>`: lookup combined with the scalar downcast,
catching `std::out_of_range` into an empty `option`.  The source writes
`return {v->value()};` where `v : shared_ptr<value<T>>`, but `value<T>`
has no member `value()` (its accessor is `get()`), so the body is
modelled with the evident intent of returning the wrapped value — here
the scalar node itself. -/
def get_as (k : scalarKind) (t : Table) (key : Chars) : Option node :=
  match lookupT t key with
  | some b => asVal k b
  | none => none

/-- `table::split(value, separator)`: repeated `find`, keeping empty
parts (a trailing separator yields a trailing empty part); the
accumulator holds the current part reversed. -/
def splitAux (sep : Char) : Chars → Chars → List Chars
  | [], acc => [acc.reverse]
  | c :: rest, acc =>
      if c = sep then acc.reverse :: splitAux sep rest []
      else splitAux sep rest (c :: acc)

/-- `table::split` as called by `resolve_qualified` (separator `.`). -/
def split (v : Chars) (sep : Char) : List Chars :=
  splitAux sep v []

/-- The `for (const auto& part : parts)` loop of
`table::resolve_qualified`: descend through `get_table`, `none` when a
part is missing or not a table. -/
def resolveWalk : Table → List Chars → Option Table
  | t, [] => some t
  | t, p :: ps =>
      match get_table t p with
      | some t' => resolveWalk t' ps
      | none => none

/-- `parts.pop_back()`: all parts but the last. -/
def initParts : List Chars → List Chars
  | [] => []
  | [_] => []
  | p :: ps => p :: initParts ps

/-- `parts.back()` (`split` never yields an empty list, so the default
for the empty case is never taken). -/
def lastPart : List Chars → Chars
  | [] => []
  | [p] => p
  | _ :: ps => lastPart ps

/-- `table::contains_qualified` (`resolve_qualified` with no output
pointer: returns `false` instead of throwing). -/
def contains_qualified (t : Table) (key : Chars) : Bool :=
  let parts := split key '.'
  match resolveWalk t (initParts parts) with
  | some t' => contains t' (lastPart parts)
  | none => false

/-- `table::get_qualified` (`resolve_qualified` with an output pointer:
throws `std::out_of_range` — with the code's message for a broken
intermediate segment, or `map_.at`'s for a missing final key). -/
def get_qualified (t : Table) (key : Chars) : Except Chars node :=
  let parts := split key '.'
  match resolveWalk t (initParts parts) with
  | some t' => get t' (lastPart parts)
  | none => .error (key ++ txt " is not a valid key")

/-- `table::get_table_qualified`. -/
def get_table_qualified (t : Table) (key : Chars) : Option Table :=
  match get_qualified t key with
  | .ok b => if contains_qualified t key ∧ is_table b then as_table b else none
  | .error _ => none

/-- `table::get_array_qualified`. -/
def get_array_qualified (t : Table) (key : Chars) : Option (List node) :=
  if contains_qualified t key then
    match get_qualified t key with
    | .ok b => as_array b
    | .error _ => none
  else none

/-- `table::get_table_array_qualified`. -/
def get_table_array_qualified (t : Table) (key : Chars) : Option (List Table) :=
  if contains_qualified t key then
    match get_qualified t key with
    | .ok b => as_table_array b
    | .error _ => none
  else none

/-- `table::get_qualified_as<T>` (same `v->value()` reading as
`get_as`). -/
def get_qualified_as (k : scalarKind) (t : Table) (key : Chars) : Option node :=
  match get_qualified t key with
  | .ok b => asVal k b
  | .error _ => none

/-! ## The parser

State of `cpptoml::parser`: the current line's unconsumed characters
(`St.cur`, the span from iterator `it` to the line's `end`), the not yet
`getline`d input lines (`St.rest`), and the 1-based line counter
(`St.line`). -/

/-- Exceptions escaping a parse: `parse` models `parse_exception` (its
optional `Option Nat` is the line number argument — `none` for the
one-argument constructor), `stdExc` the `std::invalid_argument` /
`std::out_of_range` thrown by `std::stoll` and `std::stod`, and
`fuelExhausted` is the embedding's fuel running out. -/
inductive Err where
  | parse (msg : Chars) (line : Option Nat)
  | stdExc (msg : Chars)
  | fuelExhausted

/-- `parser::throw_parse_exception`: attach the current line number. -/
def throwParse (msg : Chars) (n : Nat) : Err := .parse msg (some n)

/-- Stream-reading state during value parsing. -/
structure St where
  cur : List Char
  rest : List (List Char)
  line : Nat

/-- `*it`, with the NUL character standing for a read at `it == end`
(see the header comment). -/
def peek : List Char → Char
  | [] => Char.ofNat 0
  | c :: _ => c

/-- The whitespace test used throughout the parser (space or tab). -/
def isWs (c : Char) : Bool := c = ' ' ∨ c = '\t'

/-- `parser::is_number`: `c >= '0' && c <= '9'`. -/
def is_number (c : Char) : Bool := 48 ≤ c.toNat ∧ c.toNat ≤ 57

/-- `parser::consume_whitespace`. -/
def consume_whitespace (cur : List Char) : List Char :=
  cur.dropWhile isWs

/-- `parser::consume_backwards_whitespace` as used by `parse_bare_key`:
starting from the character before `=`, walk back over whitespace but
never past the front; the result is the key span `[it, key_end)`.  On an
empty span (the `=` is the first character) the C++ decrements before
the front — undefined behaviour — modelled as the empty key. -/
def consumeBack : List Char → List Char
  | [] => []
  | f :: rest =>
      match ((f :: rest).reverse.dropWhile isWs).reverse with
      | [] => [f]
      | l => l

/-- `parser::eol_or_comment`: after a value or header only whitespace
(already consumed) or a comment may remain. -/
def eol_or_comment (cur : List Char) (n : Nat) : Except Err Unit :=
  match cur with
  | [] => .ok ()
  | c :: _ =>
      if c = '#' then .ok ()
      else .error (throwParse
        (txt "Unidentified trailing character " ++ [c]
          ++ txt "---did you forget a '#'?") n)

/-- `parser::parse_escape_code`, the single-character escapes
`b t n f r " / \`. -/
def escapeChar (c : Char) : Option Char :=
  if c = 'b' then some (Char.ofNat 8)
  else if c = 't' then some '\t'
  else if c = 'n' then some '\n'
  else if c = 'f' then some (Char.ofNat 12)
  else if c = 'r' then some (Char.ofNat 13)
  else if c = '"' then some '"'
  else if c = '/' then some '/'
  else if c = '\\' then some '\\'
  else none

/-- The scanning loop of `parser::string_literal`, past the opening
quote: escapes via `parse_escape_code`, closing quote consumes trailing
whitespace, stream end inside the literal is an error. -/
def stringLitLoop : List Char → Chars → Nat → Except Err (Chars × List Char)
  | [], _, n => .error (throwParse (txt "Unterminated string literal") n)
  | c :: rest, acc, n =>
      if c = '\\' then
        match rest with
        | [] => .error (throwParse (txt "Invalid escape sequence") n)
        | e :: rest' =>
            match escapeChar e with
            | some v => stringLitLoop rest' (acc ++ [v]) n
            | none => .error (throwParse (txt "Invalid escape sequence") n)
      else if c = '"' then .ok (acc, consume_whitespace rest)
      else stringLitLoop rest (acc ++ [c]) n

/-- `parser::string_literal` (`cur` begins at the opening quote). -/
def string_literal (cur : List Char) (n : Nat) : Except Err (Chars × List Char) :=
  stringLitLoop (cur.drop 1) [] n

/-- `parser::parse_bare_key`: span up to `=`, trailing whitespace
stripped backwards, rejecting `#` and embedded whitespace; leaves the
iterator at the `=` (or line end when there is none). -/
def parse_bare_key (cur : List Char) (n : Nat) : Except Err (Chars × List Char) :=
  let key := consumeBack (cur.takeWhile (fun c => ¬ c = '='))
  if '#' ∈ key then
    .error (throwParse (txt "Key " ++ key ++ txt " cannot contain #") n)
  else if key.any isWs then
    .error (throwParse (txt "Key " ++ key ++ txt " cannot contain whitespace") n)
  else .ok (key, consume_whitespace (cur.dropWhile (fun c => ¬ c = '=')))

/-- `parser::parse_key`: quoted keys reuse `string_literal`. -/
def parse_key (cur : List Char) (n : Nat) : Except Err (Chars × List Char) :=
  let c := consume_whitespace cur
  if peek c = '"' then string_literal c n
  else parse_bare_key c n

/-- `parser::parse_type`. -/
inductive parse_type where
  | STRING
  | DATE
  | INT
  | FLOAT
  | BOOL
  | ARRAY
deriving DecidableEq

/-- The character class scanned by `is_date` / `parse_date`: digits and
`T`, `Z`, `:`, `-`. -/
def isDateChar (c : Char) : Bool :=
  is_number c ∨ c = 'T' ∨ c = 'Z' ∨ c = ':' ∨ c = '-'

/-- One `%d` of `std::sscanf`: an optional sign then at least one digit
(the spans scanned here contain no whitespace). -/
def scanInt : List Char → Option (Int × List Char)
  | [] => none
  | c :: rest =>
      let digitsOf : List Char → Option (Int × List Char) := fun l =>
        let ds := l.takeWhile is_number
        if ds = [] then none
        else some ((ds.foldl (fun a d => a * 10 + ((d.toNat : Int) - 48)) 0),
          l.dropWhile is_number)
      if c = '-' then
        match digitsOf rest with
        | some (v, l) => some (-v, l)
        | none => none
      else if c = '+' then digitsOf rest
      else digitsOf (c :: rest)

/-- A literal character of an `sscanf` format string. -/
def scanChar (c : Char) : List Char → Option (List Char)
  | [] => none
  | c' :: rest => if c' = c then some rest else none

/-- `std::sscanf(s, "%d-%d-%dT%d:%d:%dZ", …)` restricted to its six
conversions: `some` exactly when the call would return 6 (the trailing
`Z` literal plays no part in that count). -/
def sscanfDate (cs : List Char) : Option (Int × Int × Int × Int × Int × Int) :=
  match scanInt cs with
  | none => none
  | some (y, r1) =>
      match scanChar '-' r1 with
      | none => none
      | some r2 =>
          match scanInt r2 with
          | none => none
          | some (mo, r3) =>
              match scanChar '-' r3 with
              | none => none
              | some r4 =>
                  match scanInt r4 with
                  | none => none
                  | some (d, r5) =>
                      match scanChar 'T' r5 with
                      | none => none
                      | some r6 =>
                          match scanInt r6 with
                          | none => none
                          | some (h, r7) =>
                              match scanChar ':' r7 with
                              | none => none
                              | some r8 =>
                                  match scanInt r8 with
                                  | none => none
                                  | some (mi, r9) =>
                                      match scanChar ':' r9 with
                                      | none => none
                                      | some r10 =>
                                          match scanInt r10 with
                                          | none => none
                                          | some (s, _) =>
                                              some (y, mo, d, h, mi, s)

/-- `parser::is_date` (the non-`std::regex` branch compiled here): the
contiguous run of date characters must have length 20, the six fixed
separators in place, and `sscanf` must make all six conversions. -/
def is_date (cur : List Char) : Bool :=
  let to_match := cur.takeWhile isDateChar
  to_match.length = 20
    ∧ to_match.getD 4 ' ' = '-'
    ∧ to_match.getD 7 ' ' = '-'
    ∧ to_match.getD 10 ' ' = 'T'
    ∧ to_match.getD 13 ' ' = ':'
    ∧ to_match.getD 16 ' ' = ':'
    ∧ to_match.getD 19 ' ' = 'Z'
    ∧ (sscanfDate to_match).isSome

/-- `parser::parse_date`: decompose the matched literal into `std::tm`
fields (year − 1900, month − 1).  The code ignores `sscanf`'s return
value; the failure branch is unreachable because `determine_value_type`
admitted the span via `is_date`, and is modelled as a `stdExc`. -/
def parse_date (cur : List Char) : Except Err (node × List Char) :=
  let to_match := cur.takeWhile isDateChar
  match sscanfDate to_match with
  | some (y, mo, d, h, mi, s) =>
      .ok (.vDate ⟨y - 1900, mo - 1, d, h, mi, s⟩, cur.dropWhile isDateChar)
  | none => .error (.stdExc (txt "parse_date: fields left uninitialized"))

/-- `parser::determine_number_type`: after an optional `-` and a digit
run, a `.` means FLOAT, else INT.  (Bounding the scan by the enclosing
array element's span, as `parse_array` does, cannot change the answer:
the span delimiters `,` `]` `#` are neither digits nor `.`.) -/
def determine_number_type (cur : List Char) : parse_type :=
  let signLen := if peek cur = '-' then 1 else 0
  let rest := (cur.drop signLen).dropWhile is_number
  if peek rest = '.' ∧ ¬ rest = [] then .FLOAT else .INT

/-- `parser::determine_value_type`: fixed-precedence single-character
dispatch.  A read at the end of the line hits the NUL model and falls
through to the error, as the C++ does in practice. -/
def determine_value_type (cur : List Char) (n : Nat) : Except Err parse_type :=
  let c := peek cur
  if c = '"' then .ok .STRING
  else if is_date cur then .ok .DATE
  else if is_number c ∨ c = '-' then .ok (determine_number_type cur)
  else if c = 't' ∨ c = 'f' then .ok .BOOL
  else if c = '[' then .ok .ARRAY
  else .error (throwParse (txt "Failed to parse value type") n)

/-- `std::stoll` on the exact span `parse_number` isolates (an optional
sign then digits): `std::invalid_argument` when there is no digit,
`std::out_of_range` outside the `int64_t` range. -/
def stoll (cs : Chars) : Except Err Int :=
  let core : Chars → Except Err Int := fun l =>
    let ds := l.takeWhile is_number
    if ds = [] then .error (.stdExc (txt "stoll: invalid_argument"))
    else .ok (ds.foldl (fun a d => a * 10 + ((d.toNat : Int) - 48)) 0)
  match cs with
  | '-' :: rest =>
      match core rest with
      | .ok v =>
          if v > 2 ^ 63 then .error (.stdExc (txt "stoll: out_of_range"))
          else .ok (-v)
      | .error e => .error e
  | _ =>
      match core cs with
      | .ok v =>
          if v > 2 ^ 63 - 1 then .error (.stdExc (txt "stoll: out_of_range"))
          else .ok v
      | .error e => .error e

/-- `std::stod` on the span `parse_number` isolates (sign, digits, `.`,
digits): `std::invalid_argument` when no digit is present; the parsed
`double` itself is kept as the literal span (`vFloat`), since only the
node's dynamic kind is ever inspected by the claims. -/
def stod (cs : Chars) : Except Err node :=
  if cs.any is_number then .ok (.vFloat cs) else
    .error (.stdExc (txt "stod: invalid_argument"))

/-- `parser::parse_number`: re-scan the literal's span; a `.` that ends
the line is "Floats must have trailing digits"; otherwise hand the span
to `parse_float` / `parse_int` (`std::stod` / `std::stoll`). -/
def parse_number (cur : List Char) (n : Nat) : Except Err (node × List Char) :=
  let signLen := if peek cur = '-' then 1 else 0
  let d1 := (cur.drop signLen).takeWhile is_number
  let k := signLen + d1.length
  match cur.drop k with
  | '.' :: restd =>
      if restd = [] then
        .error (throwParse (txt "Floats must have trailing digits") n)
      else
        let d2 := restd.takeWhile is_number
        let span := cur.take (k + 1 + d2.length)
        match stod span with
        | .ok v => .ok (v, cur.drop (k + 1 + d2.length))
        | .error e => .error e
  | _ =>
      match stoll (cur.take k) with
      | .ok v => .ok (.vInt v, cur.drop k)
      | .error e => .error e

/-- `parser::parse_bool`: the token runs to whitespace or `#` (not to
`,` or `]`!); only `true`/`false` are accepted. -/
def parse_bool (cur : List Char) (n : Nat) : Except Err (node × List Char) :=
  let v := cur.takeWhile (fun c => ¬ (isWs c ∨ c = '#'))
  let rest := cur.dropWhile (fun c => ¬ (isWs c ∨ c = '#'))
  if v = txt "true" then .ok (.vBool true, rest)
  else if v = txt "false" then .ok (.vBool false, rest)
  else .error (throwParse (txt "Attempted to parse invalid boolean value") n)

/-- `parser::skip_whitespace_and_comments`: consume whitespace, pulling
fresh lines (`getline`, incrementing the line counter) while the
position sits at a line end or a comment; stream exhaustion inside an
array is "Unclosed array". -/
def skipWsCAux : List Char → List (List Char) → Nat → Except Err St
  | cur, rest, n =>
      match consume_whitespace cur with
      | [] =>
          match rest with
          | [] => .error (throwParse (txt "Unclosed array") n)
          | l :: rest' => skipWsCAux l rest' (n + 1)
      | c :: tl =>
          if c = '#' then
            match rest with
            | [] => .error (throwParse (txt "Unclosed array") n)
            | l :: rest' => skipWsCAux l rest' (n + 1)
          else .ok ⟨c :: tl, rest, n⟩

/-- `parser::skip_whitespace_and_comments` on the bundled state. -/
def skip_whitespace_and_comments (st : St) : Except Err St :=
  skipWsCAux st.cur st.rest st.line

mutual

/-- `parser::parse_value`: classify via `determine_value_type` and
dispatch to the scalar/array parsers. -/
def parse_value : Nat → St → Except Err (node × St)
  | 0, _ => .error .fuelExhausted
  | fuel + 1, st =>
      match determine_value_type st.cur st.line with
      | .error e => .error e
      | .ok ty =>
          match ty with
          | .STRING =>
              match string_literal st.cur st.line with
              | .ok (s, cur') => .ok (.vStr s, ⟨cur', st.rest, st.line⟩)
              | .error e => .error e
          | .DATE =>
              match parse_date st.cur with
              | .ok (v, cur') => .ok (v, ⟨cur', st.rest, st.line⟩)
              | .error e => .error e
          | .INT | .FLOAT =>
              match parse_number st.cur st.line with
              | .ok (v, cur') => .ok (v, ⟨cur', st.rest, st.line⟩)
              | .error e => .error e
          | .BOOL =>
              match parse_bool st.cur st.line with
              | .ok (v, cur') => .ok (v, ⟨cur', st.rest, st.line⟩)
              | .error e => .error e
          | .ARRAY => parse_array fuel st

/-- `parser::parse_array`: past `[`, skip whitespace/comments (pulling
lines), empty array on an immediate `]`; otherwise the first element's
span (up to `,` `]` `#`) fixes the element kind — note the `switch` has
no `BOOL` case, so a leading boolean lands in the default
"Unable to parse array". -/
def parse_array : Nat → St → Except Err (node × St)
  | 0, _ => .error .fuelExhausted
  | fuel + 1, st =>
      match skip_whitespace_and_comments ⟨st.cur.drop 1, st.rest, st.line⟩ with
      | .error e => .error e
      | .ok st1 =>
          if peek st1.cur = ']' then
            .ok (.arr [], ⟨st1.cur.drop 1, st1.rest, st1.line⟩)
          else
            let val_end := st1.cur.takeWhile (fun c => ¬ (c = ',' ∨ c = ']' ∨ c = '#'))
            match determine_value_type val_end st1.line with
            | .error e => .error e
            | .ok ty =>
                match ty with
                | .STRING => parse_value_array fuel .str st1 []
                | .INT => parse_value_array fuel .int st1 []
                | .FLOAT => parse_value_array fuel .flt st1 []
                | .DATE => parse_value_array fuel .datetime st1 []
                | .ARRAY => parse_nested_array fuel st1 []
                | .BOOL => .error (throwParse (txt "Unable to parse array") st1.line)

/-- The element loop of `parser::parse_value_array<Value>`: parse an
element, check its dynamic kind against the array's (`as<Value>`),
"Arrays must be heterogeneous" on mismatch, continue past commas,
consume the closing bracket (or whichever character stopped the
loop). -/
def parse_value_array : Nat → scalarKind → St → List node → Except Err (node × St)
  | 0, _, _, _ => .error .fuelExhausted
  | fuel + 1, k, st, acc =>
      if st.cur = [] ∨ peek st.cur = ']' then
        .ok (.arr acc, ⟨st.cur.drop 1, st.rest, st.line⟩)
      else
        match parse_value fuel st with
        | .error e => .error e
        | .ok (v, st1) =>
            if scalarKindOf v = some k then
              match skip_whitespace_and_comments st1 with
              | .error e => .error e
              | .ok st2 =>
                  if ¬ peek st2.cur = ',' then
                    .ok (.arr (acc ++ [v]), ⟨st2.cur.drop 1, st2.rest, st2.line⟩)
                  else
                    match skip_whitespace_and_comments
                        ⟨st2.cur.drop 1, st2.rest, st2.line⟩ with
                    | .error e => .error e
                    | .ok st3 => parse_value_array fuel k st3 (acc ++ [v])
            else .error (throwParse (txt "Arrays must be heterogeneous") st1.line)

/-- The element loop of `parser::parse_nested_array`: every element is
parsed by `parse_array` itself. -/
def parse_nested_array : Nat → St → List node → Except Err (node × St)
  | 0, _, _ => .error .fuelExhausted
  | fuel + 1, st, acc =>
      if st.cur = [] ∨ peek st.cur = ']' then
        .ok (.arr acc, ⟨st.cur.drop 1, st.rest, st.line⟩)
      else
        match parse_array fuel st with
        | .error e => .error e
        | .ok (v, st1) =>
            match skip_whitespace_and_comments st1 with
            | .error e => .error e
            | .ok st2 =>
                if ¬ peek st2.cur = ',' then
                  .ok (.arr (acc ++ [v]), ⟨st2.cur.drop 1, st2.rest, st2.line⟩)
                else
                  match skip_whitespace_and_comments
                      ⟨st2.cur.drop 1, st2.rest, st2.line⟩ with
                  | .error e => .error e
                  | .ok st3 => parse_nested_array fuel st3 (acc ++ [v])

end

/-! ## Table headers and the top-level line loop

`parser::parse` keeps a `table* curr_table` pointing into the tree under
construction; the header walks mutate the tree through it.  The
embedding renders that pointer as a zipper: `Cursor.focus` is the table
`curr_table` points at and `Cursor.ctx` the frames above it, each frame
remembering the parent table as it stood when the walk descended (with
its then-current, possibly stale child binding, which `zipUp` replaces
— `table::insert` on an existing key replaces in place, so re-zipping
reproduces exactly the C++ in-place mutation). -/

/-- One level of descent: into the table bound to a key, or into the
last element of the table-array bound to a key (`init` are the array's
other elements, in order). -/
inductive Frame where
  | inTable (k : Chars) (parent : Table)
  | inLastOfArray (k : Chars) (parent : Table) (init : List Table)

/-- The `curr_table` pointer: the focused table plus the path of frames
back to the document root. -/
structure Cursor where
  ctx : List Frame
  focus : Table

/-- Rebuild the root table from a cursor. -/
def zipUp : List Frame → Table → Table
  | [], t => t
  | .inTable k parent :: ctx, t => zipUp ctx (insert parent k (.tbl t))
  | .inLastOfArray k parent init :: ctx, t =>
      zipUp ctx (insert parent k (.tblArr (init ++ [t])))

/-- `vec.back()` on a `table_array`'s vector, splitting off the last
element; `none` on an empty vector (in C++ undefined behaviour — never
reachable, since `parse_table_array` always pushes a table into a
table-array it creates). -/
def splitLast : List Table → Option (List Table × Table)
  | [] => none
  | [t] => some ([], t)
  | t :: ts =>
      match splitLast ts with
      | some (init, last) => some (t :: init, last)
      | none => none

/-- The dotted-path segmentation both header walks perform inline: cut
at each `.`, except that a `.` that ends the name contributes nothing
(the walk's `if (it != kg_end) ++it` lands on `kg_end` and the loop
stops, so `a.` yields just `a` — unlike `table::split`, which yields a
trailing empty part). -/
def segsAux : Chars → Chars → List Chars
  | [], acc => [acc.reverse]
  | c :: rest, acc =>
      if c = '.' then
        acc.reverse :: (if rest = [] then [] else segsAux rest [])
      else segsAux rest (c :: acc)

/-- The path-walking loop of `parser::parse_single_table`: an existing
table descends, an existing table-array descends into its last element,
a value is an error, a missing segment is created as an empty table
(`insert` then descend — the zipper materialises the insert on the way
back up). -/
def walkSegs : List Chars → Cursor → Nat → Except Err Cursor
  | [], c, _ => .ok c
  | s :: rest, ⟨ctx, t⟩, n =>
      if s = [] then .error (throwParse (txt "Empty keytable part") n)
      else
        match lookupT t s with
        | some (.tbl sub) => walkSegs rest ⟨.inTable s t :: ctx, sub⟩ n
        | some (.tblArr ts) =>
            match splitLast ts with
            | some (init, last) =>
                walkSegs rest ⟨.inLastOfArray s t init :: ctx, last⟩ n
            | none => .error (.stdExc (txt "back on empty table_array"))
        | some _ =>
            .error (throwParse (txt "Keytable already exists as a value") n)
        | none => walkSegs rest ⟨.inTable s t :: ctx, []⟩ n

/-- The path-walking loop of `parser::parse_table_array`: intermediate
segments walk exactly as in `walkSegs`; the terminal segment appends a
fresh empty table to the table-array under the key (creating the
table-array first when the key is absent) and focuses it. -/
def walkArraySegs : List Chars → Cursor → Nat → Except Err Cursor
  | [], c, _ => .ok c
  | s :: rest, ⟨ctx, t⟩, n =>
      if s = [] then .error (throwParse (txt "Empty keytable part") n)
      else
        match lookupT t s with
        | some b =>
            if rest = [] then
              match b with
              | .tblArr ts => .ok ⟨.inLastOfArray s t ts :: ctx, []⟩
              | _ => .error (throwParse (txt "Expected keytable array") n)
            else
              match b with
              | .tbl sub => walkArraySegs rest ⟨.inTable s t :: ctx, sub⟩ n
              | .tblArr ts =>
                  match splitLast ts with
                  | some (init, last) =>
                      walkArraySegs rest ⟨.inLastOfArray s t init :: ctx, last⟩ n
                  | none => .error (.stdExc (txt "back on empty table_array"))
              | _ =>
                  .error (throwParse (txt "Keytable already exists as a value") n)
        | none =>
            if rest = [] then .ok ⟨.inLastOfArray s t [] :: ctx, []⟩
            else walkArraySegs rest ⟨.inTable s t :: ctx, []⟩ n

/-- `parser::parse_single_table` (`cur` begins just past the `[`): the
`[`-in-name scan runs to the line's end, the name is the span before the
first `]` (the code never checks that one exists), the duplicate check
consults the `tables_` set before the whitespace check — and the
whitespace diagnostic alone is thrown through the one-argument
`parse_exception` constructor, so it carries no line number. -/
def parse_single_table (cur : List Char) (root : Table) (tabs : List Chars)
    (n : Nat) : Except Err (Cursor × List Chars) :=
  if '[' ∈ cur then .error (throwParse (txt "Cannot have [ in table name") n)
  else
    let name := cur.takeWhile (fun c => ¬ c = ']')
    if name = [] then .error (throwParse (txt "Empty table") n)
    else if name ∈ tabs then .error (throwParse (txt "Duplicate table") n)
    else if name.any isWs then
      .error (.parse (txt "Table name " ++ name ++ txt " cannot have whitespace") none)
    else
      match walkSegs (segsAux name []) ⟨[], root⟩ n with
      | .error e => .error e
      | .ok cursor =>
          let after := (cur.dropWhile (fun c => ¬ c = ']')).drop 1
          match eol_or_comment (consume_whitespace after) n with
          | .error e => .error e
          | .ok _ => .ok (cursor, name :: tabs)

/-- `parser::parse_table_array` (`cur` begins at the second `[`): the
closing `]` must exist and be immediately followed by another `]`; the
line's remainder after `]]` is never checked. -/
def parse_table_array (cur : List Char) (root : Table) (n : Nat) :
    Except Err Cursor :=
  let cur1 := cur.drop 1
  if '[' ∈ cur1 then
    .error (throwParse (txt "Cannot have [ in keytable name") n)
  else if ¬ ']' ∈ cur1 then
    .error (throwParse (txt "Unterminated keytable array") n)
  else
    let name := cur1.takeWhile (fun c => ¬ c = ']')
    if name = [] then .error (throwParse (txt "Empty keytable") n)
    else if ¬ peek ((cur1.dropWhile (fun c => ¬ c = ']')).drop 1) = ']' then
      .error (throwParse (txt "Invalid keytable array specifier") n)
    else walkArraySegs (segsAux name []) ⟨[], root⟩ n

/-- `parser::parse_table` (`cur` begins at the first `[`): dispatch on
a second `[`.  Only the single-table branch records a name in
`tables_`. -/
def parse_table (cur : List Char) (root : Table) (tabs : List Chars)
    (n : Nat) : Except Err (Cursor × List Chars) :=
  let cur1 := cur.drop 1
  if cur1 = [] then .error (throwParse (txt "Unexpected end of table") n)
  else if peek cur1 = '[' then
    match parse_table_array cur1 root n with
    | .ok cursor => .ok (cursor, tabs)
    | .error e => .error e
  else parse_single_table cur1 root tabs n

/-- `parser::parse_key_value`: key, duplicate check against the current
table, `=`, value (which may pull continuation lines for arrays),
insert, then only whitespace or a comment may remain. -/
def parse_key_value (fuel : Nat) (st : St) (cursor : Cursor) :
    Except Err (Cursor × St) :=
  match parse_key st.cur st.line with
  | .error e => .error e
  | .ok (key, cur1) =>
      if contains cursor.focus key then
        .error (throwParse (txt "Key " ++ key ++ txt " already present") st.line)
      else if ¬ peek cur1 = '=' then
        .error (throwParse (txt "Value must follow after a '='") st.line)
      else
        match parse_value fuel ⟨consume_whitespace (cur1.drop 1), st.rest, st.line⟩ with
        | .error e => .error e
        | .ok (v, st1) =>
            let cur2 := consume_whitespace st1.cur
            match eol_or_comment cur2 st1.line with
            | .error e => .error e
            | .ok _ =>
                .ok (⟨cursor.ctx, insert cursor.focus key v⟩,
                  ⟨cur2, st1.rest, st1.line⟩)

/-- The `while (std::getline(…))` loop of `parser::parse`: blank and
comment lines are skipped, a `[` resets `curr_table` to the root (here:
zip the cursor up) and processes a header, anything else is a key/value
assignment into the current table. -/
def parseLoop : Nat → Cursor → List Chars → List (List Char) → Nat →
    Except Err Table
  | 0, _, _, _, _ => .error .fuelExhausted
  | fuel + 1, cursor, tabs, rest, n =>
      match rest with
      | [] => .ok (zipUp cursor.ctx cursor.focus)
      | l :: rest' =>
          let it := consume_whitespace l
          if it = [] then parseLoop fuel cursor tabs rest' (n + 1)
          else if peek it = '#' then parseLoop fuel cursor tabs rest' (n + 1)
          else if peek it = '[' then
            match parse_table it (zipUp cursor.ctx cursor.focus) tabs (n + 1) with
            | .error e => .error e
            | .ok (cursor1, tabs1) => parseLoop fuel cursor1 tabs1 rest' (n + 1)
          else
            match parse_key_value fuel ⟨it, rest', n + 1⟩ cursor with
            | .error e => .error e
            | .ok (cursor1, st1) => parseLoop fuel cursor1 tabs st1.rest st1.line

/-- `parser::parse` on a document given as its `getline` lines. -/
def parseDoc (fuel : Nat) (lines : List String) : Except Err Table :=
  parseLoop fuel ⟨[], []⟩ [] (lines.map String.data) 0

/-! ## The array homogeneity invariant -/

/-- The homogeneity property of one array's element list: all elements
share the dynamic scalar kind of the first, or all elements are
themselves arrays. -/
def homogeneousB (xs : List node) : Bool :=
  match xs with
  | [] => true
  | x :: _ =>
      match scalarKindOf x with
      | some k => xs.all (fun y => scalarKindOf y = some k)
      | none => xs.all is_array

mutual

/-- Every array node within a node satisfies `homogeneousB`. -/
def nodeOk : node → Bool
  | .arr xs => homogeneousB xs && nodesOk xs
  | .tbl es => entriesOk es
  | .tblArr ts => tablesOk ts
  | _ => true

def nodesOk : List node → Bool
  | [] => true
  | x :: xs => nodeOk x && nodesOk xs

/-- Every array node within a table satisfies `homogeneousB`. -/
def entriesOk : List (Chars × node) → Bool
  | [] => true
  | (_, v) :: es => nodeOk v && entriesOk es

def tablesOk : List (List (Chars × node)) → Bool
  | [] => true
  | t :: ts => entriesOk t && tablesOk ts

end

/-- The invariant for a single zipper frame: the parent table (and, for
a table-array frame, the sibling elements) satisfy the array
invariant. -/
def frameOk : Frame → Bool
  | .inTable _ parent => entriesOk parent
  | .inLastOfArray _ parent init => entriesOk parent && tablesOk init

/-- The invariant for a whole cursor. -/
def cursorOk (c : Cursor) : Bool :=
  c.ctx.all frameOk && entriesOk c.focus

/-- Join path segments with dots (the inverse of `split` on dot-free
segments), used to state the resolver/header-walk agreement. -/
def joinDots : List Chars → Chars
  | [] => []
  | [s] => s
  | s :: rest => s ++ '.' :: joinDots rest

/-- The root table the end-to-end example document must produce. -/
def c1root : Table :=
  [(txt "title", .vStr (txt "demo")),
   (txt "owner", .tbl [(txt "name", .vStr (txt "Tom"))]),
   (txt "fruit", .tblArr [[(txt "name", .vStr (txt "apple"))],
                          [(txt "name", .vStr (txt "banana"))]])]

/-! ## Theorems -/

theorem lookupT_insert (t : Table) (k : Chars) (v : node) :
    lookupT (insert t k v) k = some v := by
  induction t with
  | nil => simp [insert, lookupT]
  | cons hd tl ih =>
      obtain ⟨k', v'⟩ := hd
      by_cases h : k' = k <;> simp [insert, lookupT, h, ih]

theorem lookupT_insert_ne (t : Table) (k k' : Chars) (v : node)
    (h : ¬ k' = k) : lookupT (insert t k v) k' = lookupT t k' := by
  have h2 : ¬ k = k' := fun hh => h hh.symm
  induction t with
  | nil => simp [insert, lookupT, h2]
  | cons hd tl ih =>
      obtain ⟨k0, v0⟩ := hd
      by_cases h0 : k0 = k
      · subst h0
        simp [insert, lookupT, h2]
      · by_cases h1 : k0 = k' <;> simp [insert, lookupT, h, h0, h1, ih]

/-- Claim C1: parsing the seven-line example document succeeds and
yields a root table mapping "title" to the string "demo", "owner" to a
table mapping "name" to "Tom", and "fruit" to a table-array of exactly
the two tables mapping "name" to "apple" and to "banana", in
declaration order. -/
theorem claim_c1 :
    parseDoc 100 ["title = \"demo\"", "[owner]", "name = \"Tom\"",
        "[[fruit]]", "name = \"apple\"", "[[fruit]]", "name = \"banana\""]
      = .ok c1root
    ∧ lookupT c1root (txt "title") = some (.vStr (txt "demo"))
    ∧ lookupT c1root (txt "owner")
        = some (.tbl [(txt "name", .vStr (txt "Tom"))])
    ∧ lookupT c1root (txt "fruit")
        = some (.tblArr [[(txt "name", .vStr (txt "apple"))],
                         [(txt "name", .vStr (txt "banana"))]]) :=
  ⟨rfl, rfl, rfl, rfl⟩

/-- Claim C6 (code bug evidence): the table-name whitespace diagnostic
is thrown through the one-argument `parse_exception` constructor, so
this parse error carries no line number. -/
theorem claim_c6 :
    parseDoc 50 ["[a b]"]
      = .error (.parse (txt "Table name a b cannot have whitespace") none) :=
  rfl

/-- Claim C7 counterexample: a homogeneous boolean array does not parse
— `parse_array`'s dispatch has no boolean case, so `x = [true, false]`
raises "Unable to parse array" instead of succeeding. -/
theorem claim_c7_cex :
    parseDoc 50 ["x = [true, false]"]
      = .error (.parse (txt "Unable to parse array") (some 1)) :=
  rfl

/-- Claim C7 (amended): homogeneous arrays of strings, integers, floats
and date-times parse into an array node of that element kind, but a
boolean array raises "Unable to parse array". -/
theorem claim_c7 :
    parseDoc 50 ["x = [\"a\", \"b\"]"]
      = .ok [(txt "x", .arr [.vStr (txt "a"), .vStr (txt "b")])]
    ∧ parseDoc 50 ["x = [1, 2]"]
      = .ok [(txt "x", .arr [.vInt 1, .vInt 2])]
    ∧ parseDoc 50 ["x = [1.5, 2.5]"]
      = .ok [(txt "x", .arr [.vFloat (txt "1.5"), .vFloat (txt "2.5")])]
    ∧ parseDoc 50 ["x = [1999-01-01T01:02:03Z, 2000-11-30T23:59:59Z]"]
      = .ok [(txt "x", .arr [.vDate ⟨99, 0, 1, 1, 2, 3⟩,
                             .vDate ⟨100, 10, 30, 23, 59, 59⟩])]
    ∧ parseDoc 50 ["x = [true, false]"]
      = .error (.parse (txt "Unable to parse array") (some 1)) :=
  ⟨rfl, rfl, rfl, rfl, rfl⟩

/-- Claim C8 counterexample: the diagnostic for `x = 1.` is spelled
"Floats must have trailing digits" (capital F), not the claimed
"floats must have trailing digits". -/
theorem claim_c8_cex :
    parseDoc 50 ["x = 1."]
      = .error (.parse (txt "Floats must have trailing digits") (some 1))
    ∧ ¬ txt "Floats must have trailing digits"
        = txt "floats must have trailing digits" :=
  ⟨rfl, by decide⟩

/-- Claim C8 (amended): parsing `x = 1.` raises a parse error at line 1
with the message "Floats must have trailing digits". -/
theorem claim_c8 :
    parseDoc 50 ["x = 1."]
      = .error (.parse (txt "Floats must have trailing digits") (some 1)) :=
  rfl

/-- Claim C10: `table::insert` on an already-present key silently
replaces the mapping (leaving other keys untouched) and never fails;
key uniqueness is enforced only by `parse_key_value`'s duplicate check,
which turns a re-assigned key into "Key … already present". -/
theorem claim_c10 :
    (∀ (t : Table) (k : Chars) (v0 v : node), lookupT t k = some v0 →
        get (insert t k v) k = .ok v
          ∧ ∀ k', ¬ k' = k → lookupT (insert t k v) k' = lookupT t k')
    ∧ parseDoc 50 ["a = 1", "a = 2"]
        = .error (.parse (txt "Key a already present") (some 2)) := by
  refine ⟨fun t k v0 v _ => ⟨?_, fun k' hk => lookupT_insert_ne t k k' v hk⟩, rfl⟩
  simp [get, lookupT_insert]

/-- Witness for C10 at a concrete table. -/
theorem claim_c10_witness :
    lookupT [(txt "a", node.vInt 1)] (txt "a") = some (node.vInt 1)
    ∧ get (insert [(txt "a", node.vInt 1)] (txt "a") (node.vInt 2)) (txt "a")
        = .ok (node.vInt 2) :=
  ⟨rfl, (claim_c10.1 [(txt "a", node.vInt 1)] (txt "a") (node.vInt 1)
    (node.vInt 2) rfl).1⟩

theorem lookupT_none_of_contains_false (t : Table) (k : Chars)
    (h : contains t k = false) : lookupT t k = none := by
  cases hl : lookupT t k
  · rfl
  · simp [contains, hl] at h

theorem as_table_none (b : node) (h : is_table b = false) :
    as_table b = none := by
  cases b <;> simp_all [is_table, as_table]

theorem as_array_none (b : node) (h : is_array b = false) :
    as_array b = none := by
  cases b <;> simp_all [is_array, as_array]

theorem as_table_array_none (b : node) (h : is_table_array b = false) :
    as_table_array b = none := by
  cases b <;> simp_all [is_table_array, as_table_array]

theorem get_qualified_error_of_not_contains (t : Table) (k : Chars)
    (h : contains_qualified t k = false) :
    ∃ e, get_qualified t k = .error e := by
  simp only [contains_qualified] at h
  cases hw : resolveWalk t (initParts (split k '.')) with
  | none => exact ⟨k ++ txt " is not a valid key", by simp [get_qualified, hw]⟩
  | some t' =>
      simp only [hw] at h
      have hl : lookupT t' (lastPart (split k '.')) = none :=
        lookupT_none_of_contains_false t' _ h
      exact ⟨txt "map::at: out_of_range", by simp [get_qualified, get, hw, hl]⟩

theorem contains_qualified_of_get_qualified_ok (t : Table) (k : Chars)
    (b : node) (h : get_qualified t k = .ok b) :
    contains_qualified t k = true := by
  simp only [get_qualified] at h
  cases hw : resolveWalk t (initParts (split k '.')) with
  | none => simp [hw] at h
  | some t' =>
      simp only [hw, get] at h
      cases hl : lookupT t' (lastPart (split k '.')) with
      | none => simp [hl] at h
      | some v => simp [contains_qualified, contains, hw, hl]

/-- Claim C5: the direct lookups `get` / `get_qualified` fail with a
not-found error on an absent key, while every typed convenience
accessor (and its qualified form) yields an absent/empty result — never
an error — both on an absent key and on a present key whose dynamic
kind does not match (for `get_as` this holds of the modelled intent of
its broken `v->value()` body, see its doc comment). -/
theorem claim_c5 (t : Table) (k : Chars) :
    (contains t k = false →
        (∃ e, get t k = .error e)
        ∧ get_table t k = none ∧ get_array t k = none
        ∧ get_table_array t k = none
        ∧ ∀ kd, get_as kd t k = none)
    ∧ (∀ b, lookupT t k = some b →
        (is_table b = false → get_table t k = none)
        ∧ (is_array b = false → get_array t k = none)
        ∧ (is_table_array b = false → get_table_array t k = none)
        ∧ ∀ kd, ¬ scalarKindOf b = some kd → get_as kd t k = none)
    ∧ (contains_qualified t k = false →
        (∃ e, get_qualified t k = .error e)
        ∧ get_table_qualified t k = none ∧ get_array_qualified t k = none
        ∧ get_table_array_qualified t k = none
        ∧ ∀ kd, get_qualified_as kd t k = none)
    ∧ (∀ b, get_qualified t k = .ok b →
        (is_table b = false → get_table_qualified t k = none)
        ∧ (is_array b = false → get_array_qualified t k = none)
        ∧ (is_table_array b = false → get_table_array_qualified t k = none)
        ∧ ∀ kd, ¬ scalarKindOf b = some kd → get_qualified_as kd t k = none) := by
  refine ⟨fun h => ?_, fun b hb => ?_, fun h => ?_, fun b hb => ?_⟩
  · have hl := lookupT_none_of_contains_false t k h
    exact ⟨⟨txt "map::at: out_of_range", by simp [get, hl]⟩,
      by simp [get_table, hl],
      by simp [get_array, hl], by simp [get_table_array, hl],
      fun kd => by simp [get_as, hl]⟩
  · exact ⟨fun hnt => by simp [get_table, hb, hnt],
      fun hna => by simp [get_array, hb, as_array_none b hna],
      fun hnta => by simp [get_table_array, hb, as_table_array_none b hnta],
      fun kd hkd => by simp [get_as, hb, asVal, hkd]⟩
  · obtain ⟨e, he⟩ := get_qualified_error_of_not_contains t k h
    exact ⟨⟨e, he⟩, by simp [get_table_qualified, he],
      by simp [get_array_qualified, h],
      by simp [get_table_array_qualified, h],
      fun kd => by simp [get_qualified_as, he]⟩
  · have hc := contains_qualified_of_get_qualified_ok t k b hb
    exact ⟨fun hnt => by simp [get_table_qualified, hb, hnt],
      fun hna => by simp [get_array_qualified, hc, hb, as_array_none b hna],
      fun hnta => by
        simp [get_table_array_qualified, hc, hb, as_table_array_none b hnta],
      fun kd hkd => by simp [get_qualified_as, hb, asVal, hkd]⟩

/-- Witness for C5 at a concrete table: "a" maps to an integer, "b" is
absent. -/
theorem claim_c5_witness :
    contains [(txt "a", node.vInt 1)] (txt "b") = false
    ∧ get_table [(txt "a", node.vInt 1)] (txt "b") = none
    ∧ lookupT [(txt "a", node.vInt 1)] (txt "a") = some (node.vInt 1)
    ∧ is_table (node.vInt 1) = false
    ∧ get_table [(txt "a", node.vInt 1)] (txt "a") = none :=
  ⟨rfl, ((claim_c5 [(txt "a", node.vInt 1)] (txt "b")).1 rfl).2.1, rfl, rfl,
    (((claim_c5 [(txt "a", node.vInt 1)] (txt "a")).2.1 (node.vInt 1) rfl).1) rfl⟩

theorem splitAux_no_sep (sep : Char) (l acc : Chars) (h : ¬ sep ∈ l) :
    splitAux sep l acc = [acc.reverse ++ l] := by
  induction l generalizing acc with
  | nil => simp [splitAux]
  | cons c rest ih =>
      have hc : ¬ c = sep := fun hh => h (by simp [hh])
      have hr : ¬ sep ∈ rest := fun hh => h (by simp [hh])
      simp [splitAux, hc, ih _ hr]

theorem splitAux_sep (sep : Char) (l r acc : Chars) (h : ¬ sep ∈ l) :
    splitAux sep (l ++ sep :: r) acc
      = (acc.reverse ++ l) :: splitAux sep r [] := by
  induction l generalizing acc with
  | nil => simp [splitAux]
  | cons c rest ih =>
      have hc : ¬ c = sep := fun hh => h (by simp [hh])
      have hr : ¬ sep ∈ rest := fun hh => h (by simp [hh])
      simp [splitAux, hc, ih _ hr]

theorem split_joinDots (segs : List Chars) (hne : ¬ segs = [])
    (h : ∀ s ∈ segs, ¬ '.' ∈ s) : split (joinDots segs) '.' = segs := by
  induction segs with
  | nil => exact absurd rfl hne
  | cons s rest ih =>
      cases rest with
      | nil => simpa [joinDots, split] using splitAux_no_sep '.' s [] (h s (by simp))
      | cons a rest' =>
          have h1 : ¬ '.' ∈ s := h s (by simp)
          have h2 : ∀ x ∈ a :: rest', ¬ '.' ∈ x := fun x hx => h x (by simp [hx])
          simp only [joinDots, split] at ih ⊢
          rw [splitAux_sep '.' s (joinDots (a :: rest')) [] h1]
          simp [ih (by simp) h2]

theorem insert_lookup_self (t : Table) (k : Chars) (v : node)
    (h : lookupT t k = some v) : insert t k v = t := by
  induction t with
  | nil => simp [lookupT] at h
  | cons hd tl ih =>
      obtain ⟨k0, v0⟩ := hd
      by_cases h0 : k0 = k
      · subst h0
        simp [lookupT] at h
        simp [insert, h]
      · simp [lookupT, h0] at h
        simp [insert, h0, ih h]

theorem get_table_some_iff (t : Table) (k : Chars) (u : Table) :
    get_table t k = some u ↔ lookupT t k = some (.tbl u) := by
  cases hl : lookupT t k with
  | none => simp [get_table, hl]
  | some b => cases b <;> simp [get_table, hl, is_table, as_table]

theorem resolveWalk_splitOff (segs : List Chars) (root t' : Table)
    (h : resolveWalk root segs = some t') (hne : ¬ segs = []) :
    ∃ tp, resolveWalk root (initParts segs) = some tp
      ∧ get_table tp (lastPart segs) = some t' := by
  induction segs generalizing root with
  | nil => exact absurd rfl hne
  | cons s rest ih =>
      cases rest with
      | nil =>
          simp only [resolveWalk] at h
          cases hg : get_table root s with
          | none => rw [hg] at h; simp at h
          | some t1 =>
              rw [hg] at h
              simp only [resolveWalk] at h
              exact ⟨root, by simp [initParts, resolveWalk],
                by simp [lastPart, hg, h]⟩
      | cons a rest' =>
          simp only [resolveWalk] at h
          cases hg : get_table root s with
          | none => rw [hg] at h; simp at h
          | some t1 =>
              rw [hg] at h
              obtain ⟨tp, hw, hl⟩ := ih t1 h (by simp)
              exact ⟨tp, by simp [initParts, resolveWalk, hg, hw],
                by simpa [lastPart] using hl⟩

theorem walkSegs_resolved (segs : List Chars) (ctx0 : List Frame)
    (t0 t' : Table) (n : Nat) (h : resolveWalk t0 segs = some t')
    (hne : ∀ s ∈ segs, ¬ s = []) :
    ∃ ctx, walkSegs segs ⟨ctx0, t0⟩ n = .ok ⟨ctx, t'⟩
      ∧ zipUp ctx t' = zipUp ctx0 t0 := by
  induction segs generalizing ctx0 t0 with
  | nil =>
      simp only [resolveWalk, Option.some_inj] at h
      subst h
      exact ⟨ctx0, by simp [walkSegs], rfl⟩
  | cons s rest ih =>
      simp only [resolveWalk] at h
      cases hg : get_table t0 s with
      | none => rw [hg] at h; simp at h
      | some t1 =>
          rw [hg] at h
          have hl : lookupT t0 s = some (.tbl t1) := (get_table_some_iff t0 s t1).mp hg
          obtain ⟨ctx, hw, hz⟩ :=
            ih (Frame.inTable s t0 :: ctx0) t1 h (fun x hx => hne x (by simp [hx]))
          refine ⟨ctx, ?_, ?_⟩
          · simp [walkSegs, hne s (by simp), hl, hw]
          · rw [hz]
            simp [zipUp, insert_lookup_self t0 s (.tbl t1) hl]

/-- Claim C4: when the dotted path `a.b.c` fully resolves through
nested tables, `get_qualified` returns exactly the node that
`get_table(a)`, `get_table(b)`, `get(c)` reach; when any segment is
missing (an absent or non-table intermediate, or an absent final key),
`get_qualified` raises a not-found error. -/
theorem claim_c4 (root : Table) (k1 k2 k3 : Chars) (hk1 : ¬ '.' ∈ k1)
    (hk2 : ¬ '.' ∈ k2) (hk3 : ¬ '.' ∈ k3) :
    (∀ t1 t2, get_table root k1 = some t1 → get_table t1 k2 = some t2 →
        contains t2 k3 = true →
        get_qualified root (k1 ++ txt "." ++ k2 ++ txt "." ++ k3) = get t2 k3
        ∧ ∃ v, get t2 k3 = .ok v)
    ∧ ((∀ t1 t2, ¬ (get_table root k1 = some t1 ∧ get_table t1 k2 = some t2
          ∧ contains t2 k3 = true)) →
        ∃ e, get_qualified root (k1 ++ txt "." ++ k2 ++ txt "." ++ k3)
          = .error e) := by
  have hkey : k1 ++ txt "." ++ k2 ++ txt "." ++ k3
      = joinDots [k1, k2, k3] := by
    simp [joinDots, txt]
  have hsplit : split (k1 ++ txt "." ++ k2 ++ txt "." ++ k3) '.' = [k1, k2, k3] := by
    rw [hkey]
    refine split_joinDots [k1, k2, k3] (by simp) ?_
    intro s hs
    have hs3 : s = k1 ∨ s = k2 ∨ s = k3 := by simpa using hs
    rcases hs3 with rfl | rfl | rfl
    · exact hk1
    · exact hk2
    · exact hk3
  constructor
  · intro t1 t2 h1 h2 h3
    obtain ⟨v, hv⟩ : ∃ v, lookupT t2 k3 = some v := by
      cases hl : lookupT t2 k3
      · simp [contains, hl] at h3
      · exact ⟨_, rfl⟩
    constructor
    · simp only [get_qualified, hsplit, initParts, lastPart, resolveWalk, h1, h2]
    · exact ⟨v, by simp [get, hv]⟩
  · intro hmiss
    cases hg1 : get_table root k1 with
    | none =>
        refine ⟨k1 ++ txt "." ++ k2 ++ txt "." ++ k3 ++ txt " is not a valid key", ?_⟩
        simp only [get_qualified, hsplit, initParts, lastPart, resolveWalk, hg1]
    | some t1 =>
        cases hg2 : get_table t1 k2 with
        | none =>
            refine ⟨k1 ++ txt "." ++ k2 ++ txt "." ++ k3 ++ txt " is not a valid key", ?_⟩
            simp only [get_qualified, hsplit, initParts, lastPart, resolveWalk,
              hg1, hg2]
        | some t2 =>
            have h3 : contains t2 k3 = false := by
              cases hc : contains t2 k3
              · rfl
              · exact absurd ⟨hg1, hg2, hc⟩ (hmiss t1 t2)
            have hl := lookupT_none_of_contains_false t2 k3 h3
            refine ⟨txt "map::at: out_of_range", ?_⟩
            simp only [get_qualified, hsplit, initParts, lastPart, resolveWalk,
              hg1, hg2, get, hl]

/-- Witness for C4 at a concrete three-level table. -/
theorem claim_c4_witness :
    get_table [(txt "a", node.tbl [(txt "b", node.tbl [(txt "c", node.vInt 7)])])]
        (txt "a") = some [(txt "b", node.tbl [(txt "c", node.vInt 7)])]
    ∧ get_qualified
        [(txt "a", node.tbl [(txt "b", node.tbl [(txt "c", node.vInt 7)])])]
        (txt "a" ++ txt "." ++ txt "b" ++ txt "." ++ txt "c")
      = get [(txt "c", node.vInt 7)] (txt "c") :=
  ⟨rfl,
    ((claim_c4 [(txt "a", node.tbl [(txt "b", node.tbl [(txt "c", node.vInt 7)])])]
        (txt "a") (txt "b") (txt "c") (by decide) (by decide) (by decide)).1
      [(txt "b", node.tbl [(txt "c", node.vInt 7)])] [(txt "c", node.vInt 7)]
      rfl rfl rfl).1⟩

/-- Claim C9 counterexample: on a path whose first segment is bound to
a table-array, the parser's header walk descends into the array's last
element and resolves the path to a table, while `contains_qualified` /
`get_qualified` report not-found — the header walk does not resolve
segments exactly as `resolve_qualified` does. -/
theorem claim_c9_cex :
    walkSegs [txt "a", txt "b"]
        ⟨[], [(txt "a", node.tblArr [[(txt "b", node.tbl [])]])]⟩ 1
      = .ok ⟨[.inTable (txt "b") [(txt "b", node.tbl [])],
              .inLastOfArray (txt "a")
                [(txt "a", node.tblArr [[(txt "b", node.tbl [])]])] []], []⟩
    ∧ contains_qualified [(txt "a", node.tblArr [[(txt "b", node.tbl [])]])]
        (txt "a.b") = false
    ∧ get_qualified [(txt "a", node.tblArr [[(txt "b", node.tbl [])]])]
        (txt "a.b") = .error (txt "a.b is not a valid key") :=
  ⟨rfl, rfl, rfl⟩

/-- Claim C9 (amended): whenever a dotted path fully resolves through
plain tables in the sense of `resolve_qualified` (every segment found
via `get_table`), the header walk of `parse_single_table` descends to
exactly that table and leaves the tree unchanged, and `get_qualified` /
`contains_qualified` agree on the result; the agreement fails on
table-array segments, where the header walk descends into the last
element but the resolver reports not-found. -/
theorem claim_c9 :
    (∀ (root : Table) (segs : List Chars) (t' : Table) (n : Nat),
        resolveWalk root segs = some t' → (∀ s ∈ segs, ¬ s = []) →
        ∃ ctx, walkSegs segs ⟨[], root⟩ n = .ok ⟨ctx, t'⟩
          ∧ zipUp ctx t' = root)
    ∧ (∀ (root : Table) (segs : List Chars) (t' : Table),
        ¬ segs = [] → (∀ s ∈ segs, ¬ '.' ∈ s) →
        resolveWalk root segs = some t' →
        get_qualified root (joinDots segs) = .ok (.tbl t')
        ∧ contains_qualified root (joinDots segs) = true) := by
  constructor
  · intro root segs t' n h hne
    obtain ⟨ctx, hw, hz⟩ := walkSegs_resolved segs [] root t' n h hne
    exact ⟨ctx, hw, by simpa [zipUp] using hz⟩
  · intro root segs t' hne hnd h
    obtain ⟨tp, hw, hg⟩ := resolveWalk_splitOff segs root t' h hne
    have hl : lookupT tp (lastPart segs) = some (.tbl t') :=
      (get_table_some_iff tp (lastPart segs) t').mp hg
    have hs := split_joinDots segs hne hnd
    exact ⟨by simp [get_qualified, hs, hw, get, hl],
      by simp [contains_qualified, hs, hw, contains, hl]⟩

/-- Witness for C9 at a concrete nested-table root. -/
theorem claim_c9_witness :
    resolveWalk [(txt "a", node.tbl [(txt "b", node.tbl [])])]
        [txt "a", txt "b"] = some []
    ∧ ∃ ctx, walkSegs [txt "a", txt "b"]
        ⟨[], [(txt "a", node.tbl [(txt "b", node.tbl [])])]⟩ 1 = .ok ⟨ctx, []⟩
        ∧ zipUp ctx [] = [(txt "a", node.tbl [(txt "b", node.tbl [])])] :=
  ⟨rfl, (claim_c9.1 [(txt "a", node.tbl [(txt "b", node.tbl [])])]
    [txt "a", txt "b"] [] 1 rfl (by decide))⟩

theorem takeWhile_append_all (p : Char → Bool) (l r : List Char)
    (h : ∀ c ∈ l, p c = true) :
    (l ++ r).takeWhile p = l ++ r.takeWhile p := by
  induction l with
  | nil => simp
  | cons c tl ih =>
      simp [List.takeWhile_cons, h c (by simp),
        ih (fun x hx => h x (by simp [hx]))]

theorem dropWhile_append_all (p : Char → Bool) (l r : List Char)
    (h : ∀ c ∈ l, p c = true) :
    (l ++ r).dropWhile p = r.dropWhile p := by
  induction l with
  | nil => simp
  | cons c tl ih =>
      simp [List.dropWhile_cons, h c (by simp),
        ih (fun x hx => h x (by simp [hx]))]

theorem segsAux_no_dot (l acc : Chars) (h : ¬ '.' ∈ l) :
    segsAux l acc = [acc.reverse ++ l] := by
  induction l generalizing acc with
  | nil => simp [segsAux]
  | cons c rest ih =>
      have hc : ¬ c = '.' := fun hh => h (by simp [hh])
      have hr : ¬ '.' ∈ rest := fun hh => h (by simp [hh])
      simp [segsAux, hc, ih _ hr]

/-- Claim C3: a single-table header whose exact dotted name was already
declared raises "Duplicate table", for any parser state; a repeated
table-array header does not fail — when the key already holds a
table-array it appends a fresh empty table and focuses it.  Both shown
end-to-end on `[a]`/`[a]` and `[[a]]`/`[[a]]`. -/
theorem claim_c3 :
    (∀ (cur : List Char) (root : Table) (tabs : List Chars) (n : Nat),
        ¬ '[' ∈ cur → ¬ cur.takeWhile (fun c => ¬ c = ']') = [] →
        cur.takeWhile (fun c => ¬ c = ']') ∈ tabs →
        parse_single_table cur root tabs n
          = .error (.parse (txt "Duplicate table") (some n)))
    ∧ (∀ (k : Chars) (root : Table) (ts : List Table) (n : Nat),
        lookupT root k = some (.tblArr ts) → ¬ k = [] →
        ¬ '[' ∈ k → ¬ ']' ∈ k → ¬ '.' ∈ k →
        parse_table_array (txt "[" ++ k ++ txt "]]") root n
          = .ok ⟨[.inLastOfArray k root ts], []⟩
        ∧ zipUp [.inLastOfArray k root ts] []
          = insert root k (.tblArr (ts ++ [[]])))
    ∧ parseDoc 50 ["[a]", "[a]"]
        = .error (.parse (txt "Duplicate table") (some 2))
    ∧ parseDoc 50 ["[[a]]", "[[a]]"] = .ok [(txt "a", .tblArr [[], []])] := by
  refine ⟨?_, ?_, rfl, rfl⟩
  · intro cur root tabs n h1 h2 h3
    simp only [parse_single_table]
    rw [if_neg h1, if_neg h2, if_pos h3]
    rfl
  · intro k root ts n hk hne h1 h2 h3
    have hall : ∀ c ∈ k, (fun c => ¬ c = ']' : Char → Bool) c = true := by
      intro c hc
      have : ¬ c = ']' := fun hh => h2 (hh ▸ hc)
      simp [this]
    have hname : (k ++ txt "]]").takeWhile (fun c => ¬ c = ']') = k := by
      rw [takeWhile_append_all _ _ _ hall]
      simp [txt]
    have hdropw : (k ++ txt "]]").dropWhile (fun c => ¬ c = ']') = txt "]]" := by
      rw [dropWhile_append_all _ _ _ hall]
      simp [txt]
    have hsegs : segsAux k [] = [k] := by simpa using segsAux_no_dot k [] h3
    have hd1 : (txt "[" ++ k ++ txt "]]").drop 1 = k ++ txt "]]" := by
      simp [txt]
    constructor
    · have hbr1 : ¬ '[' ∈ k ++ txt "]]" := by
        simp only [List.mem_append]
        rintro (hh | hh)
        · exact h1 hh
        · revert hh
          decide
      have hbr2 : ']' ∈ k ++ txt "]]" := by
        simp only [List.mem_append]
        right
        decide
      have hpk : peek ((txt "]]").tail) = ']' := by decide
      simp only [parse_table_array, hd1]
      rw [if_neg hbr1, if_neg (by simp [hbr2]), hname, if_neg hne, hdropw,
        if_neg (by simp [hpk]), hsegs]
      simp [walkArraySegs, hne, hk]
    · simp [zipUp]

/-- Witness for C3 at a concrete state: the duplicate check fires on a
re-declared name, and a second `[[a]]` header appends to the existing
one-element table-array. -/
theorem claim_c3_witness :
    parse_single_table (txt "a]") [] [txt "a"] 2
      = .error (.parse (txt "Duplicate table") (some 2))
    ∧ parse_table_array (txt "[a]]") [(txt "a", node.tblArr [[]])] 2
      = .ok ⟨[.inLastOfArray (txt "a") [(txt "a", node.tblArr [[]])] [[]]], []⟩ :=
  ⟨claim_c3.1 (txt "a]") [] [txt "a"] 2 (by decide) (by decide) (by decide),
    (claim_c3.2.1 (txt "a") [(txt "a", node.tblArr [[]])] [[]] 2 rfl
      (by decide) (by decide) (by decide) (by decide)).1⟩

theorem nodeOk_scalar (v : node) (k : scalarKind)
    (h : scalarKindOf v = some k) : nodeOk v = true := by
  cases v <;> simp_all [scalarKindOf, nodeOk]

theorem is_array_exists (x : node) (h : is_array x = true) :
    ∃ ys, x = .arr ys := by
  cases x <;> simp_all [is_array]

theorem homog_of_kind (xs : List node) (k : scalarKind)
    (h : ∀ x ∈ xs, scalarKindOf x = some k) : homogeneousB xs = true := by
  cases xs with
  | nil => rfl
  | cons x rest =>
      have hx := h x (by simp)
      simp only [homogeneousB, hx, List.all_eq_true, decide_eq_true_eq]
      exact h

theorem homog_of_arr (xs : List node) (h : ∀ x ∈ xs, is_array x = true) :
    homogeneousB xs = true := by
  cases xs with
  | nil => rfl
  | cons x rest =>
      obtain ⟨ys, rfl⟩ := is_array_exists x (h x (by simp))
      simp only [homogeneousB, scalarKindOf, List.all_eq_true]
      exact h

theorem nodesOk_of_forall (xs : List node)
    (h : ∀ x ∈ xs, nodeOk x = true) : nodesOk xs = true := by
  induction xs with
  | nil => rfl
  | cons x rest ih =>
      simp [nodesOk, h x (by simp), ih (fun y hy => h y (by simp [hy]))]

theorem parse_value_array_kinds : ∀ (fuel : Nat) (k : scalarKind) (st : St)
    (acc : List node) (v : node) (st' : St),
    parse_value_array fuel k st acc = .ok (v, st') →
    (∀ x ∈ acc, scalarKindOf x = some k) →
    ∃ xs, v = .arr xs ∧ ∀ x ∈ xs, scalarKindOf x = some k := by
  intro fuel
  induction fuel with
  | zero => intro k st acc v st' h; simp [parse_value_array] at h
  | succ fuel ih =>
      intro k st acc v st' h hacc
      simp only [parse_value_array] at h
      by_cases hfin : st.cur = [] ∨ peek st.cur = ']'
      · rw [if_pos hfin] at h
        simp only [Except.ok.injEq, Prod.mk.injEq] at h
        exact ⟨acc, h.1.symm, hacc⟩
      · rw [if_neg hfin] at h
        cases hpv : parse_value fuel st with
        | error e => rw [hpv] at h; simp at h
        | ok p =>
            obtain ⟨v1, st1⟩ := p
            rw [hpv] at h
            simp only [] at h
            by_cases hkind : scalarKindOf v1 = some k
            · rw [if_pos hkind] at h
              cases hsw : skip_whitespace_and_comments st1 with
              | error e => rw [hsw] at h; simp at h
              | ok st2 =>
                  rw [hsw] at h
                  simp only [] at h
                  by_cases hc : ¬ peek st2.cur = ','
                  · rw [if_pos hc] at h
                    simp only [Except.ok.injEq, Prod.mk.injEq] at h
                    refine ⟨acc ++ [v1], h.1.symm, ?_⟩
                    intro x hx
                    rcases List.mem_append.mp hx with hx | hx
                    · exact hacc x hx
                    · simp only [List.mem_singleton] at hx
                      subst hx
                      exact hkind
                  · rw [if_neg hc] at h
                    cases hsw2 : skip_whitespace_and_comments
                        ⟨st2.cur.drop 1, st2.rest, st2.line⟩ with
                    | error e => rw [hsw2] at h; simp at h
                    | ok st3 =>
                        rw [hsw2] at h
                        simp only [] at h
                        refine ih k st3 (acc ++ [v1]) v st' h ?_
                        intro x hx
                        rcases List.mem_append.mp hx with hx | hx
                        · exact hacc x hx
                        · simp only [List.mem_singleton] at hx
                          subst hx
                          exact hkind
            · rw [if_neg hkind] at h
              simp at h

theorem stod_ok (cs : Chars) (w : node) (h : stod cs = .ok w) :
    w = .vFloat cs := by
  simp only [stod] at h
  split at h
  · simp only [Except.ok.injEq] at h
    exact h.symm
  · simp at h

theorem parse_number_scalar (cur : List Char) (n : Nat) (v : node)
    (cur' : List Char) (h : parse_number cur n = .ok (v, cur')) :
    nodeOk v = true := by
  simp only [parse_number] at h
  split at h
  · split at h
    · simp at h
    · split at h
      · rename_i w heq
        simp only [Except.ok.injEq, Prod.mk.injEq] at h
        rw [← h.1, stod_ok _ _ heq]
        rfl
      · simp at h
  · split at h
    · simp only [Except.ok.injEq, Prod.mk.injEq] at h
      rw [← h.1]
      rfl
    · simp at h

theorem parsersOk : ∀ fuel : Nat,
    (∀ st v st', parse_value fuel st = .ok (v, st') → nodeOk v = true)
    ∧ (∀ st v st', parse_array fuel st = .ok (v, st') →
        is_array v = true ∧ nodeOk v = true)
    ∧ (∀ st acc v st', parse_nested_array fuel st acc = .ok (v, st') →
        (∀ x ∈ acc, is_array x = true ∧ nodeOk x = true) →
        ∃ xs, v = .arr xs ∧ ∀ x ∈ xs, is_array x = true ∧ nodeOk x = true) := by
  intro fuel
  induction fuel with
  | zero =>
      refine ⟨?_, ?_, ?_⟩ <;> intro st <;> intros <;>
        simp_all [parse_value, parse_array, parse_nested_array]
  | succ fuel ih =>
      obtain ⟨ih1, ih2, ih3⟩ := ih
      refine ⟨?_, ?_, ?_⟩
      · intro st v st' h
        simp only [parse_value] at h
        cases hdt : determine_value_type st.cur st.line with
        | error e => rw [hdt] at h; simp at h
        | ok ty =>
            rw [hdt] at h
            simp only [] at h
            cases ty
            case STRING =>
                cases hsl : string_literal st.cur st.line with
                | error e => rw [hsl] at h; simp at h
                | ok p =>
                    obtain ⟨s, cur1⟩ := p
                    rw [hsl] at h
                    simp only [Except.ok.injEq, Prod.mk.injEq] at h
                    rw [← h.1]
                    rfl
            case DATE =>
                cases hpd : parse_date st.cur with
                | error e => rw [hpd] at h; simp at h
                | ok p =>
                    obtain ⟨d, cur1⟩ := p
                    rw [hpd] at h
                    simp only [Except.ok.injEq, Prod.mk.injEq] at h
                    rw [← h.1]
                    have : ∃ dd, d = node.vDate dd := by
                      simp only [parse_date] at hpd
                      split at hpd
                      · simp only [Except.ok.injEq, Prod.mk.injEq] at hpd
                        exact ⟨_, hpd.1.symm⟩
                      · simp at hpd
                    obtain ⟨dd, rfl⟩ := this
                    rfl
            case INT =>
                cases hpn : parse_number st.cur st.line with
                | error e => rw [hpn] at h; simp at h
                | ok p =>
                    obtain ⟨w, cur1⟩ := p
                    rw [hpn] at h
                    simp only [Except.ok.injEq, Prod.mk.injEq] at h
                    rw [← h.1]
                    exact parse_number_scalar st.cur st.line w cur1 hpn
            case FLOAT =>
                cases hpn : parse_number st.cur st.line with
                | error e => rw [hpn] at h; simp at h
                | ok p =>
                    obtain ⟨w, cur1⟩ := p
                    rw [hpn] at h
                    simp only [Except.ok.injEq, Prod.mk.injEq] at h
                    rw [← h.1]
                    exact parse_number_scalar st.cur st.line w cur1 hpn
            case BOOL =>
                cases hpb : parse_bool st.cur st.line with
                | error e => rw [hpb] at h; simp at h
                | ok p =>
                    obtain ⟨w, cur1⟩ := p
                    rw [hpb] at h
                    simp only [Except.ok.injEq, Prod.mk.injEq] at h
                    rw [← h.1]
                    have : ∃ b, w = node.vBool b := by
                      simp only [parse_bool] at hpb
                      split at hpb
                      · simp only [Except.ok.injEq, Prod.mk.injEq] at hpb
                        exact ⟨_, hpb.1.symm⟩
                      · split at hpb
                        · simp only [Except.ok.injEq, Prod.mk.injEq] at hpb
                          exact ⟨_, hpb.1.symm⟩
                        · simp at hpb
                    obtain ⟨b, rfl⟩ := this
                    rfl
            case ARRAY => exact (ih2 st v st' h).2
      · intro st v st' h
        simp only [parse_array] at h
        cases hsw : skip_whitespace_and_comments
            ⟨st.cur.drop 1, st.rest, st.line⟩ with
        | error e => rw [hsw] at h; simp at h
        | ok st1 =>
            rw [hsw] at h
            simp only [] at h
            by_cases hbr : peek st1.cur = ']'
            · rw [if_pos hbr] at h
              simp only [Except.ok.injEq, Prod.mk.injEq] at h
              rw [← h.1]
              exact ⟨rfl, rfl⟩
            · rw [if_neg hbr] at h
              cases hdt : determine_value_type
                  (st1.cur.takeWhile fun c => ¬ (c = ',' ∨ c = ']' ∨ c = '#'))
                  st1.line with
              | error e => rw [hdt] at h; simp at h
              | ok ty =>
                  rw [hdt] at h
                  simp only [] at h
                  cases ty with
                  | STRING =>
                      obtain ⟨xs, rfl, hk⟩ :=
                        parse_value_array_kinds fuel .str st1 [] v st' h (by simp)
                      refine ⟨rfl, ?_⟩
                      simp only [nodeOk, Bool.and_eq_true]
                      exact ⟨homog_of_kind xs _ hk, nodesOk_of_forall xs
                        (fun x hx => nodeOk_scalar x _ (hk x hx))⟩
                  | INT =>
                      obtain ⟨xs, rfl, hk⟩ :=
                        parse_value_array_kinds fuel .int st1 [] v st' h (by simp)
                      refine ⟨rfl, ?_⟩
                      simp only [nodeOk, Bool.and_eq_true]
                      exact ⟨homog_of_kind xs _ hk, nodesOk_of_forall xs
                        (fun x hx => nodeOk_scalar x _ (hk x hx))⟩
                  | FLOAT =>
                      obtain ⟨xs, rfl, hk⟩ :=
                        parse_value_array_kinds fuel .flt st1 [] v st' h (by simp)
                      refine ⟨rfl, ?_⟩
                      simp only [nodeOk, Bool.and_eq_true]
                      exact ⟨homog_of_kind xs _ hk, nodesOk_of_forall xs
                        (fun x hx => nodeOk_scalar x _ (hk x hx))⟩
                  | DATE =>
                      obtain ⟨xs, rfl, hk⟩ :=
                        parse_value_array_kinds fuel .datetime st1 [] v st' h
                          (by simp)
                      refine ⟨rfl, ?_⟩
                      simp only [nodeOk, Bool.and_eq_true]
                      exact ⟨homog_of_kind xs _ hk, nodesOk_of_forall xs
                        (fun x hx => nodeOk_scalar x _ (hk x hx))⟩
                  | ARRAY =>
                      obtain ⟨xs, rfl, hx⟩ := ih3 st1 [] v st' h (by simp)
                      refine ⟨rfl, ?_⟩
                      simp only [nodeOk, Bool.and_eq_true]
                      exact ⟨homog_of_arr xs (fun x hh => (hx x hh).1),
                        nodesOk_of_forall xs (fun x hh => (hx x hh).2)⟩
                  | BOOL => simp at h
      · intro st acc v st' h hacc
        simp only [parse_nested_array] at h
        by_cases hfin : st.cur = [] ∨ peek st.cur = ']'
        · rw [if_pos hfin] at h
          simp only [Except.ok.injEq, Prod.mk.injEq] at h
          exact ⟨acc, h.1.symm, hacc⟩
        · rw [if_neg hfin] at h
          cases hpa : parse_array fuel st with
          | error e => rw [hpa] at h; simp at h
          | ok p =>
              obtain ⟨v1, st1⟩ := p
              rw [hpa] at h
              simp only [] at h
              cases hsw : skip_whitespace_and_comments st1 with
              | error e => rw [hsw] at h; simp at h
              | ok st2 =>
                  rw [hsw] at h
                  simp only [] at h
                  have hv1 := ih2 st v1 st1 hpa
                  by_cases hc : ¬ peek st2.cur = ','
                  · rw [if_pos hc] at h
                    simp only [Except.ok.injEq, Prod.mk.injEq] at h
                    refine ⟨acc ++ [v1], h.1.symm, ?_⟩
                    intro x hx
                    rcases List.mem_append.mp hx with hx | hx
                    · exact hacc x hx
                    · simp only [List.mem_singleton] at hx
                      subst hx
                      exact hv1
                  · rw [if_neg hc] at h
                    cases hsw2 : skip_whitespace_and_comments
                        ⟨st2.cur.drop 1, st2.rest, st2.line⟩ with
                    | error e => rw [hsw2] at h; simp at h
                    | ok st3 =>
                        rw [hsw2] at h
                        simp only [] at h
                        refine ih3 st3 (acc ++ [v1]) v st' h ?_
                        intro x hx
                        rcases List.mem_append.mp hx with hx | hx
                        · exact hacc x hx
                        · simp only [List.mem_singleton] at hx
                          subst hx
                          exact hv1

theorem insert_entriesOk (t : Table) (k : Chars) (v : node)
    (ht : entriesOk t = true) (hv : nodeOk v = true) :
    entriesOk (insert t k v) = true := by
  induction t with
  | nil => simp [insert, entriesOk, nodesOk, hv]
  | cons hd tl ih =>
      obtain ⟨k0, v0⟩ := hd
      simp only [entriesOk, Bool.and_eq_true] at ht
      by_cases h0 : k0 = k
      · simp [insert, h0, entriesOk, hv, ht.2]
      · simp [insert, h0, entriesOk, ht.1, ih ht.2]

theorem lookup_nodeOk (t : Table) (k : Chars) (v : node)
    (ht : entriesOk t = true) (h : lookupT t k = some v) :
    nodeOk v = true := by
  induction t with
  | nil => simp [lookupT] at h
  | cons hd tl ih =>
      obtain ⟨k0, v0⟩ := hd
      simp only [entriesOk, Bool.and_eq_true] at ht
      by_cases h0 : k0 = k
      · simp only [lookupT, if_pos h0, Option.some_inj] at h
        rw [← h]
        exact ht.1
      · simp only [lookupT, if_neg h0] at h
        exact ih ht.2 h

theorem tablesOk_append (ts us : List Table)
    (h1 : tablesOk ts = true) (h2 : tablesOk us = true) :
    tablesOk (ts ++ us) = true := by
  induction ts with
  | nil => simpa using h2
  | cons t ts ih =>
      simp only [tablesOk, Bool.and_eq_true] at h1
      simp only [List.cons_append, tablesOk, Bool.and_eq_true]
      exact ⟨h1.1, ih h1.2⟩

theorem splitLast_ok (ts : List Table) : ∀ (init : List Table) (last : Table),
    tablesOk ts = true → splitLast ts = some (init, last) →
    tablesOk init = true ∧ entriesOk last = true := by
  induction ts with
  | nil => intro init last ht h; simp [splitLast] at h
  | cons t ts ih =>
      intro init last ht h
      cases ts with
      | nil =>
          simp only [splitLast, Option.some_inj, Prod.mk.injEq] at h
          simp only [tablesOk, Bool.and_eq_true] at ht
          rw [← h.1, ← h.2]
          exact ⟨rfl, ht.1⟩
      | cons t2 ts2 =>
          simp only [splitLast] at h
          cases hs : splitLast (t2 :: ts2) with
          | none => rw [hs] at h; simp at h
          | some p =>
              obtain ⟨init2, last2⟩ := p
              rw [hs] at h
              simp only [Option.some_inj, Prod.mk.injEq] at h
              simp only [tablesOk, Bool.and_eq_true] at ht
              obtain ⟨hi, hl⟩ := ih init2 last2
                (by simp only [tablesOk, Bool.and_eq_true]; exact ht.2) hs
              rw [← h.1, ← h.2]
              refine ⟨?_, hl⟩
              simp only [tablesOk, Bool.and_eq_true]
              exact ⟨ht.1, hi⟩

theorem zipUp_ok (ctx : List Frame) : ∀ focus : Table,
    ctx.all frameOk = true → entriesOk focus = true →
    entriesOk (zipUp ctx focus) = true := by
  induction ctx with
  | nil => intro focus _ hf; simpa [zipUp] using hf
  | cons f ctx ih =>
      intro focus hctx hf
      simp only [List.all_cons, Bool.and_eq_true] at hctx
      cases f with
      | inTable k parent =>
          simp only [zipUp]
          refine ih _ hctx.2 (insert_entriesOk parent k (.tbl focus) ?_ ?_)
          · simpa [frameOk] using hctx.1
          · simpa [nodeOk] using hf
      | inLastOfArray k parent init =>
          simp only [zipUp]
          simp only [frameOk, Bool.and_eq_true] at hctx
          refine ih _ hctx.2
            (insert_entriesOk parent k (.tblArr (init ++ [focus])) hctx.1.1 ?_)
          simp only [nodeOk]
          refine tablesOk_append init [focus] hctx.1.2 ?_
          simp [tablesOk, hf]

theorem walkSegs_ok (segs : List Chars) : ∀ (c c' : Cursor) (n : Nat),
    cursorOk c = true → walkSegs segs c n = .ok c' → cursorOk c' = true := by
  induction segs with
  | nil =>
      intro c c' n hc h
      simp only [walkSegs, Except.ok.injEq] at h
      rw [← h]
      exact hc
  | cons s rest ih =>
      intro c c' n hc h
      obtain ⟨ctx, t⟩ := c
      simp only [cursorOk, Bool.and_eq_true] at hc
      simp only [walkSegs] at h
      by_cases hs : s = []
      · rw [if_pos hs] at h; simp at h
      · rw [if_neg hs] at h
        cases hl : lookupT t s with
        | none =>
            rw [hl] at h
            simp only [] at h
            refine ih _ c' n ?_ h
            simp [cursorOk, frameOk, entriesOk, hc.1, hc.2]
        | some b =>
            rw [hl] at h
            cases b with
            | tbl sub =>
                simp only [] at h
                refine ih _ c' n ?_ h
                have hsub : entriesOk sub = true := by
                  simpa [nodeOk] using lookup_nodeOk t s (.tbl sub) hc.2 hl
                simp [cursorOk, frameOk, hc.1, hc.2, hsub]
            | tblArr ts =>
                simp only [] at h
                cases hsp : splitLast ts with
                | none => rw [hsp] at h; simp at h
                | some p =>
                    obtain ⟨init, last⟩ := p
                    rw [hsp] at h
                    simp only [] at h
                    have hts : tablesOk ts = true := by
                      simpa [nodeOk] using
                        lookup_nodeOk t s (.tblArr ts) hc.2 hl
                    obtain ⟨hi, hlast⟩ := splitLast_ok ts init last hts hsp
                    refine ih _ c' n ?_ h
                    simp [cursorOk, frameOk, hc.1, hc.2, hi, hlast]
            | vStr s0 => simp at h
            | vInt i0 => simp at h
            | vFloat f0 => simp at h
            | vBool b0 => simp at h
            | vDate d0 => simp at h
            | arr xs => simp at h

theorem walkArraySegs_ok (segs : List Chars) : ∀ (c c' : Cursor) (n : Nat),
    cursorOk c = true → walkArraySegs segs c n = .ok c' →
    cursorOk c' = true := by
  induction segs with
  | nil =>
      intro c c' n hc h
      simp only [walkArraySegs, Except.ok.injEq] at h
      rw [← h]
      exact hc
  | cons s rest ih =>
      intro c c' n hc h
      obtain ⟨ctx, t⟩ := c
      simp only [cursorOk, Bool.and_eq_true] at hc
      simp only [walkArraySegs] at h
      by_cases hs : s = []
      · rw [if_pos hs] at h; simp at h
      · rw [if_neg hs] at h
        cases hl : lookupT t s with
        | none =>
            rw [hl] at h
            simp only [] at h
            by_cases hr : rest = []
            · rw [if_pos hr] at h
              simp only [Except.ok.injEq] at h
              rw [← h]
              simp [cursorOk, frameOk, entriesOk, tablesOk, hc.1, hc.2]
            · rw [if_neg hr] at h
              refine ih _ c' n ?_ h
              simp [cursorOk, frameOk, entriesOk, hc.1, hc.2]
        | some b =>
            rw [hl] at h
            simp only [] at h
            by_cases hr : rest = []
            · rw [if_pos hr] at h
              cases b with
              | tblArr ts =>
                  simp only [] at h
                  simp only [Except.ok.injEq] at h
                  rw [← h]
                  have hts : tablesOk ts = true := by
                    simpa [nodeOk] using lookup_nodeOk t s (.tblArr ts) hc.2 hl
                  simp [cursorOk, frameOk, entriesOk, hc.1, hc.2, hts]
              | tbl sub => simp at h
              | vStr s0 => simp at h
              | vInt i0 => simp at h
              | vFloat f0 => simp at h
              | vBool b0 => simp at h
              | vDate d0 => simp at h
              | arr xs => simp at h
            · rw [if_neg hr] at h
              cases b with
              | tbl sub =>
                  simp only [] at h
                  refine ih _ c' n ?_ h
                  have hsub : entriesOk sub = true := by
                    simpa [nodeOk] using lookup_nodeOk t s (.tbl sub) hc.2 hl
                  simp [cursorOk, frameOk, hc.1, hc.2, hsub]
              | tblArr ts =>
                  simp only [] at h
                  cases hsp : splitLast ts with
                  | none => rw [hsp] at h; simp at h
                  | some p =>
                      obtain ⟨init, last⟩ := p
                      rw [hsp] at h
                      simp only [] at h
                      have hts : tablesOk ts = true := by
                        simpa [nodeOk] using
                          lookup_nodeOk t s (.tblArr ts) hc.2 hl
                      obtain ⟨hi, hlast⟩ := splitLast_ok ts init last hts hsp
                      refine ih _ c' n ?_ h
                      simp [cursorOk, frameOk, hc.1, hc.2, hi, hlast]
              | vStr s0 => simp at h
              | vInt i0 => simp at h
              | vFloat f0 => simp at h
              | vBool b0 => simp at h
              | vDate d0 => simp at h
              | arr xs => simp at h

theorem parse_single_table_ok (cur : List Char) (root : Table)
    (tabs : List Chars) (n : Nat) (cursor : Cursor) (tabs' : List Chars)
    (hr : entriesOk root = true)
    (h : parse_single_table cur root tabs n = .ok (cursor, tabs')) :
    cursorOk cursor = true := by
  simp only [parse_single_table] at h
  split at h
  · simp at h
  · split at h
    · simp at h
    · split at h
      · simp at h
      · split at h
        · simp at h
        · cases hw : walkSegs (segsAux (cur.takeWhile fun c => ¬ c = ']') [])
              ⟨[], root⟩ n with
          | error e => rw [hw] at h; simp at h
          | ok c0 =>
              rw [hw] at h
              simp only [] at h
              split at h
              · simp at h
              · simp only [Except.ok.injEq, Prod.mk.injEq] at h
                rw [← h.1]
                exact walkSegs_ok _ _ c0 n (by simp [cursorOk, hr]) hw

theorem parse_table_array_ok (cur : List Char) (root : Table) (n : Nat)
    (cursor : Cursor) (hr : entriesOk root = true)
    (h : parse_table_array cur root n = .ok cursor) :
    cursorOk cursor = true := by
  simp only [parse_table_array] at h
  split at h
  · simp at h
  · split at h
    · simp at h
    · split at h
      · simp at h
      · split at h
        · simp at h
        · exact walkArraySegs_ok _ _ cursor n (by simp [cursorOk, hr]) h

theorem parse_table_ok (cur : List Char) (root : Table) (tabs : List Chars)
    (n : Nat) (cursor : Cursor) (tabs' : List Chars)
    (hr : entriesOk root = true)
    (h : parse_table cur root tabs n = .ok (cursor, tabs')) :
    cursorOk cursor = true := by
  simp only [parse_table] at h
  split at h
  · simp at h
  · split at h
    · cases hta : parse_table_array (cur.drop 1) root n with
      | error e => rw [hta] at h; simp at h
      | ok c0 =>
          rw [hta] at h
          simp only [Except.ok.injEq, Prod.mk.injEq] at h
          rw [← h.1]
          exact parse_table_array_ok _ root n c0 hr hta
    · exact parse_single_table_ok _ root tabs n cursor tabs' hr h

theorem parse_key_value_ok (fuel : Nat) (st : St) (cursor cursor' : Cursor)
    (st' : St) (hc : cursorOk cursor = true)
    (h : parse_key_value fuel st cursor = .ok (cursor', st')) :
    cursorOk cursor' = true := by
  simp only [parse_key_value] at h
  cases hpk : parse_key st.cur st.line with
  | error e => rw [hpk] at h; simp at h
  | ok p =>
      obtain ⟨key, cur1⟩ := p
      rw [hpk] at h
      simp only [] at h
      split at h
      · simp at h
      · split at h
        · simp at h
        · cases hpv : parse_value fuel
              ⟨consume_whitespace (cur1.drop 1), st.rest, st.line⟩ with
          | error e => rw [hpv] at h; simp at h
          | ok p2 =>
              obtain ⟨v, st1⟩ := p2
              rw [hpv] at h
              simp only [] at h
              split at h
              · simp at h
              · simp only [Except.ok.injEq, Prod.mk.injEq] at h
                rw [← h.1]
                simp only [cursorOk, Bool.and_eq_true] at hc ⊢
                refine ⟨hc.1, insert_entriesOk _ key v hc.2 ?_⟩
                exact (parsersOk fuel).1 _ v st1 hpv

theorem parseLoop_ok : ∀ (fuel : Nat) (cursor : Cursor) (tabs : List Chars)
    (rest : List (List Char)) (n : Nat) (root : Table),
    cursorOk cursor = true → parseLoop fuel cursor tabs rest n = .ok root →
    entriesOk root = true := by
  intro fuel
  induction fuel with
  | zero => intro cursor tabs rest n root hc h; simp [parseLoop] at h
  | succ fuel ih =>
      intro cursor tabs rest n root hc h
      simp only [parseLoop] at h
      cases rest with
      | nil =>
          simp only [Except.ok.injEq] at h
          rw [← h]
          have hcc := hc
          simp only [cursorOk, Bool.and_eq_true] at hcc
          exact zipUp_ok cursor.ctx cursor.focus hcc.1 hcc.2
      | cons l rest' =>
          simp only [] at h
          split at h
          · exact ih cursor tabs rest' (n + 1) root hc h
          · split at h
            · exact ih cursor tabs rest' (n + 1) root hc h
            · split at h
              · cases hpt : parse_table (consume_whitespace l)
                    (zipUp cursor.ctx cursor.focus) tabs (n + 1) with
                | error e => rw [hpt] at h; simp at h
                | ok p =>
                    obtain ⟨cursor1, tabs1⟩ := p
                    rw [hpt] at h
                    simp only [] at h
                    have hz : entriesOk (zipUp cursor.ctx cursor.focus) = true := by
                      have hcc := hc
                      simp only [cursorOk, Bool.and_eq_true] at hcc
                      exact zipUp_ok cursor.ctx cursor.focus hcc.1 hcc.2
                    exact ih cursor1 tabs1 rest' (n + 1) root
                      (parse_table_ok _ _ tabs (n + 1) cursor1 tabs1 hz hpt) h
              · cases hkv : parse_key_value fuel
                    ⟨consume_whitespace l, rest', n + 1⟩ cursor with
                | error e => rw [hkv] at h; simp at h
                | ok p =>
                    obtain ⟨cursor1, st1⟩ := p
                    rw [hkv] at h
                    simp only [] at h
                    exact ih cursor1 tabs st1.rest st1.line root
                      (parse_key_value_ok fuel _ cursor cursor1 st1 hc hkv) h

/-- Claim C2 counterexample: `x = [true, 1]` mixes two scalar kinds
(boolean and integer), yet the parse error message is
"Unable to parse array" (the boolean-headed array never reaches the
homogeneity check), not "Arrays must be heterogeneous". -/
theorem claim_c2_cex :
    parseDoc 50 ["x = [true, 1]"]
      = .error (.parse (txt "Unable to parse array") (some 1))
    ∧ ¬ txt "Unable to parse array" = txt "Arrays must be heterogeneous" :=
  ⟨rfl, by decide⟩

/-- Claim C2 (amended): every array node anywhere in a successfully
parsed document is homogeneous — all elements of one scalar kind, or
all elements arrays (`homogeneousB`, shown equivalent to that
disjunction); a mismatching element of a string/integer/float/date-time
array raises "Arrays must be heterogeneous" (shown on `x = [1, "a"]`),
while an array whose first element is a boolean raises
"Unable to parse array" before any homogeneity check. -/
theorem claim_c2 :
    (∀ (fuel : Nat) (lines : List String) (root : Table),
        parseDoc fuel lines = .ok root → entriesOk root = true)
    ∧ (∀ xs : List node, homogeneousB xs = true ↔
        ((∃ k, ∀ x ∈ xs, scalarKindOf x = some k)
          ∨ ∀ x ∈ xs, is_array x = true))
    ∧ parseDoc 50 ["x = [1, \"a\"]"]
        = .error (.parse (txt "Arrays must be heterogeneous") (some 1))
    ∧ parseDoc 50 ["x = [1, 2]"]
        = .ok [(txt "x", .arr [.vInt 1, .vInt 2])] := by
  refine ⟨?_, ?_, rfl, rfl⟩
  · intro fuel lines root h
    exact parseLoop_ok fuel ⟨[], []⟩ [] (lines.map String.data) 0 root rfl h
  · intro xs
    constructor
    · intro h
      cases xs with
      | nil => exact .inl ⟨.str, by simp⟩
      | cons x rest =>
          simp only [homogeneousB] at h
          cases hk : scalarKindOf x with
          | some k =>
              rw [hk] at h
              simp only [List.all_eq_true, decide_eq_true_eq] at h
              exact .inl ⟨k, h⟩
          | none =>
              rw [hk] at h
              simp only [List.all_eq_true] at h
              exact .inr h
    · rintro (⟨k, hk⟩ | ha)
      · exact homog_of_kind xs k hk
      · exact homog_of_arr xs ha

/-- Witness for C2: the universal invariant applied to a concrete
successful parse. -/
theorem claim_c2_witness :
    entriesOk [(txt "x", node.arr [node.vInt 1, node.vInt 2])] = true :=
  claim_c2.1 50 ["x = [1, 2]"]
    [(txt "x", node.arr [node.vInt 1, node.vInt 2])] rfl

end cpptoml
